import Mathlib

/-!
Verification of the epub-translator translation pipeline (src/js/app.js).

The development shallowly embeds the pipeline's core algorithms:
JavaScript strings are modelled as `List Char`, the parsed markup document
as a rose tree `XNode`, and each stage (fragment extraction, batch
grouping, retry loop, concurrency gate, translation cache, response
reconciliation, document rewriting with metadata cleanup, backend request
handling) as an executable Lean function mirroring the source line by line.
-/

set_option maxHeartbeats 1000000
set_option maxRecDepth 100000

namespace EpubTranslator

/-! ## JavaScript-style strings as character lists -/

/-- Character list standing for a JavaScript string. -/
abbrev Str := List Char

/-- Whitespace characters relevant to the EPUB texts handled by the app:
ASCII whitespace plus the ideographic space U+3000 and NBSP, matching the
characters JavaScript's `trim` / `\s` treat as whitespace on this data. -/
def isWsChar (c : Char) : Bool :=
  c = ' ' || c = '\t' || c = '\n' || c = '\r' || c = '\x0b' || c = '\x0c' ||
  c = ' ' || c = '　'

/-- `true` when every character of the string is whitespace. -/
def allWs (s : Str) : Bool := s.all isWsChar

/-- JavaScript `String.prototype.trim`: strip whitespace at both ends. -/
def trimStr (s : Str) : Str :=
  ((s.dropWhile isWsChar).reverse.dropWhile isWsChar).reverse

/-- `Array.prototype.join(sep)` on strings. -/
def joinSep (sep : Str) : List Str → Str
  | [] => []
  | [s] => s
  | s :: rest => s ++ sep ++ joinSep sep rest

/-- The double line-break `"\n\n"` used to frame batch segments. -/
def nn : Str := ['\n', '\n']

theorem allWs_append (a b : Str) : allWs (a ++ b) = (allWs a && allWs b) := by
  simp [allWs, List.all_append]

theorem trimStr_eq_nil_iff (s : Str) : trimStr s = [] ↔ allWs s = true := by
  unfold trimStr allWs
  constructor
  · intro h
    rw [List.reverse_eq_nil_iff, List.dropWhile_eq_nil_iff] at h
    rw [List.all_eq_true]
    intro x hx
    rcases List.mem_append.1 (by
        rw [List.takeWhile_append_dropWhile (p := isWsChar) (l := s)]; exact hx :
        x ∈ s.takeWhile isWsChar ++ s.dropWhile isWsChar) with h1 | h1
    · exact List.mem_takeWhile_imp h1
    · exact h (x) (List.mem_reverse.2 h1)
  · intro h
    rw [List.all_eq_true] at h
    have h1 : s.dropWhile isWsChar = [] := by
      rw [List.dropWhile_eq_nil_iff]
      intro x hx; exact h x hx
    simp [h1]

theorem allWs_of_trimStr_ne_nil {s : Str} (h : trimStr s ≠ []) : allWs s = false := by
  cases hw : allWs s with
  | false => rfl
  | true => exact absurd ((trimStr_eq_nil_iff s).2 hw) h

theorem trimStr_ne_nil_of_not_allWs {s : Str} (h : allWs s = false) : trimStr s ≠ [] := by
  intro hnil
  rw [(trimStr_eq_nil_iff s).1 hnil] at h
  simp at h

/-! ## Translation cache (`getCacheKey`, `addToCache`, `getFromCache`,
src/js/app.js lines 28-50).

The cache is a `Map`; it is modelled as an association list in insertion
order (`Map.keys().next().value` is the oldest key, FIFO eviction). -/

/-- Decimal representation of a natural number as a character list,
standing for JavaScript number-to-string interpolation. -/
def natStr (n : Nat) : Str := (Nat.repr n).data

/-- `getCacheKey(text, sourceLang, targetLang)`: the key is
`` `${sourceLang}-${targetLang}-${prefix.length}-${text.length}-${prefix.substring(0, 20)}` ``
where `prefix = text.substring(0, 100)` — a truncated fingerprint, not the
full text. -/
def getCacheKey (text sourceLang targetLang : Str) : Str :=
  let prefx := text.take 100
  sourceLang ++ ['-'] ++ targetLang ++ ['-'] ++ natStr prefx.length ++ ['-'] ++
    natStr text.length ++ ['-'] ++ prefx.take 20

/-- The cache: key/value pairs in insertion order. -/
abbrev Cache := List (Str × Str)

/-- `MAX_CACHE_SIZE` (line 14). -/
def MAX_CACHE_SIZE : Nat := 1000

/-- `Map.set`: update in place when the key exists, else append. -/
def cacheSet (c : Cache) (k v : Str) : Cache :=
  if (c.lookup k).isSome then c.map (fun kv => if kv.1 = k then (k, v) else kv)
  else c ++ [(k, v)]

/-- `addToCache` (lines 36-44): evict the oldest entry at capacity, then
insert under the derived key. -/
def addToCache (c : Cache) (text sourceLang targetLang result : Str) : Cache :=
  let c' := if MAX_CACHE_SIZE ≤ c.length then c.drop 1 else c
  cacheSet c' (getCacheKey text sourceLang targetLang) result

/-- `getFromCache` (lines 47-50). -/
def getFromCache (c : Cache) (text sourceLang targetLang : Str) : Option Str :=
  c.lookup (getCacheKey text sourceLang targetLang)

/-! ## Batch grouper (`translateWithZhipuAI`, lines 2613-2667; the
OpenRouter path, lines 3490-3544, is the identical algorithm). -/

/-- A fragment as far as the grouper is concerned. -/
structure GPara where
  originalText : Str
deriving Repr, DecidableEq

/-- A batch produced by the grouper. -/
structure Group where
  paragraphs : List GPara
  combinedText : Str
  count : Nat
deriving Repr, DecidableEq

/-- `TARGET_MIN_LENGTH` (line 2614). -/
def TARGET_MIN_LENGTH : Nat := 300
/-- `TARGET_MAX_LENGTH` (line 2615). -/
def TARGET_MAX_LENGTH : Nat := 500

/-- Build one batch record from accumulated fragments: `combinedText` is
the `"\n\n"`-join of the members' original texts. -/
def mkGroup (batch : List GPara) : Group :=
  ⟨batch, joinSep nn (batch.map (·.originalText)), batch.length⟩

/-- The grouping loop (lines 2620-2658): oversized fragments flush the
accumulator and go out alone; small fragments accumulate until the soft
minimum (300 chars) or 8 fragments, then flush.  `acc` is `currentBatch`
and `len` is `currentLength`. -/
def groupGo (acc : List GPara) (len : Nat) : List GPara → List Group
  | [] => if acc.isEmpty then [] else [mkGroup acc]
  | para :: rest =>
    let textLength := para.originalText.length
    if TARGET_MAX_LENGTH < textLength then
      (if acc.isEmpty then [] else [mkGroup acc]) ++ mkGroup [para] :: groupGo [] 0 rest
    else
      let acc2 := acc ++ [para]
      let len2 := len + textLength
      if TARGET_MIN_LENGTH ≤ len2 ∨ 8 ≤ acc2.length then
        mkGroup acc2 :: groupGo [] 0 rest
      else
        groupGo acc2 len2 rest

/-- `groupedParagraphs` for a fragment list (lines 2616-2667). -/
def groupParagraphs (paras : List GPara) : List Group := groupGo [] 0 paras

/-- Sum of the fragments' own text lengths in a list. -/
def sumLens (l : List GPara) : Nat := (l.map (·.originalText.length)).sum

instance : Inhabited GPara := ⟨⟨[]⟩⟩
instance : Inhabited Group := ⟨⟨[], [], 0⟩⟩

theorem sumLens_append (a b : List GPara) :
    sumLens (a ++ b) = sumLens a + sumLens b := by
  simp [sumLens]

theorem joinSep_length_le (sep : Str) :
    ∀ l : List Str, (joinSep sep l).length ≤
      (l.map List.length).sum + sep.length * (l.length - 1)
  | [] => by simp [joinSep]
  | [s] => by simp [joinSep]
  | s :: t :: rest => by
    have ih := joinSep_length_le sep (t :: rest)
    simp only [joinSep, List.length_append, List.map_cons, List.sum_cons,
      List.length_cons, Nat.add_sub_cancel, Nat.mul_succ] at ih ⊢
    omega

theorem mkGroup_paragraphs (l : List GPara) : (mkGroup l).paragraphs = l := rfl

theorem mkGroup_count (l : List GPara) : (mkGroup l).count = l.length := rfl

theorem mkGroup_combined_length_le (l : List GPara) :
    (mkGroup l).combinedText.length ≤ sumLens l + 2 * (l.length - 1) := by
  have h := joinSep_length_le nn (l.map (·.originalText))
  simpa [mkGroup, sumLens, nn, List.map_map, Function.comp] using h

/-- The shape every grouper output batch satisfies: either a singleton
holding one oversized fragment, or a merged batch whose member lengths sum
below the soft minimum plus the hard maximum. -/
def GroupOk (g : Group) : Prop :=
  (∃ p, g.paragraphs = [p] ∧ TARGET_MAX_LENGTH < p.originalText.length) ∨
  (sumLens g.paragraphs ≤ 799 ∧ g.paragraphs.length ≤ 8 ∧
    g.combinedText.length ≤ 813 ∧
    ∀ p ∈ g.paragraphs, p.originalText.length ≤ TARGET_MAX_LENGTH)

theorem groupOk_small (acc : List GPara) (hsum : sumLens acc ≤ 799)
    (hlen : acc.length ≤ 8)
    (hall : ∀ p ∈ acc, p.originalText.length ≤ TARGET_MAX_LENGTH) :
    GroupOk (mkGroup acc) := by
  have hc := mkGroup_combined_length_le acc
  exact Or.inr ⟨by rw [mkGroup_paragraphs]; exact hsum,
    by rw [mkGroup_paragraphs]; exact hlen,
    by omega,
    by rw [mkGroup_paragraphs]; exact hall⟩

theorem groupGo_ok (ps : List GPara) :
    ∀ acc len, len = sumLens acc → sumLens acc ≤ 299 → acc.length ≤ 7 →
    (∀ p ∈ acc, p.originalText.length ≤ TARGET_MAX_LENGTH) →
    ∀ g ∈ groupGo acc len ps, GroupOk g := by
  induction ps with
  | nil =>
    intro acc len _ hsum hlen hall g hg
    simp only [groupGo] at hg
    split at hg
    · simp at hg
    · rw [List.mem_singleton] at hg
      subst hg
      exact groupOk_small acc (by omega) (by omega) hall
  | cons para rest ih =>
    intro acc len hlen hsum hcnt hall g hg
    simp only [groupGo] at hg
    split at hg
    · -- oversized fragment: flush accumulator, emit singleton
      rename_i hbig
      rw [List.mem_append] at hg
      rcases hg with hg | hg
      · split at hg
        · simp at hg
        · rw [List.mem_singleton] at hg
          subst hg
          exact groupOk_small acc (by omega) (by omega) hall
      · rw [List.mem_cons] at hg
        rcases hg with hg | hg
        · subst hg
          exact Or.inl ⟨para, rfl, hbig⟩
        · exact ih [] 0 rfl (by simp [sumLens]) (by simp) (by simp) g hg
    · rename_i hsmall
      have hple : para.originalText.length ≤ TARGET_MAX_LENGTH := by
        simpa using hsmall
      have hs2 : sumLens (acc ++ [para]) =
          sumLens acc + para.originalText.length := by
        simp [sumLens_append, sumLens]
      split at hg
      · -- flush the enlarged accumulator
        rw [List.mem_cons] at hg
        rcases hg with hg | hg
        · subst hg
          refine groupOk_small (acc ++ [para]) ?_ ?_ ?_
          · simp only [TARGET_MAX_LENGTH] at hple
            omega
          · simp only [List.length_append, List.length_cons, List.length_nil]
            omega
          · intro p hp
            rcases List.mem_append.1 hp with h | h
            · exact hall p h
            · rw [List.mem_singleton] at h
              subst h
              exact hple
        · exact ih [] 0 rfl (by simp [sumLens]) (by simp) (by simp) g hg
      · -- keep accumulating
        rename_i hkeep
        push_neg at hkeep
        refine ih (acc ++ [para]) (len + para.originalText.length)
          (by rw [hs2]; omega)
          (by rw [hs2]; simp only [TARGET_MIN_LENGTH] at hkeep; omega)
          (by have := hkeep.2; simp only [List.length_append, List.length_cons,
                List.length_nil] at this ⊢; omega)
          ?_ g hg
        intro p hp
        rcases List.mem_append.1 hp with h | h
        · exact hall p h
        · rw [List.mem_singleton] at h
          subst h
          exact hple

theorem groupGo_flatten (ps : List GPara) :
    ∀ acc len, ((groupGo acc len ps).map (·.paragraphs)).flatten = acc ++ ps := by
  induction ps with
  | nil =>
    intro acc len
    simp only [groupGo]
    split
    · rename_i h
      simp [List.isEmpty_iff.1 h]
    · simp [mkGroup_paragraphs]
  | cons para rest ih =>
    intro acc len
    simp only [groupGo]
    split
    · have hr := ih [] 0
      split
      · rename_i h
        rw [List.isEmpty_iff.1 h]
        simp only [List.nil_append, List.map_cons, List.flatten_cons,
          mkGroup_paragraphs]
        rw [hr]
        simp
      · simp only [List.map_append, List.map_cons, List.flatten_append,
          List.flatten_cons, mkGroup_paragraphs, List.map_nil, List.flatten_nil]
        rw [hr]
        simp
    · split
      · have hr := ih [] 0
        simp only [List.map_cons, List.flatten_cons, mkGroup_paragraphs]
        rw [hr]
        simp
      · have hr := ih (acc ++ [para]) (len + para.originalText.length)
        rw [hr]
        simp

/-! ## Retry controller (`translateWithZhipuAI` lines 2711-2918,
`translateWithOpenRouter` lines 3588-3739).

The `while (retries < maxRetries)` loop is embedded with explicit fuel
(`fuel = maxRetries - retries` at entry); one attempt is one evaluation of
the attempt function `f`, whose argument is the current `retries` counter.
A thrown error is `Except.error`, carrying the JavaScript error message. -/

/-- Record of one run of the retry loop: the final result, the backoff
delays waited (in ms, in order), and how many attempts were made. -/
structure RetryOutcome (α : Type) where
  result : Except Str α
  delays : List Nat
  attempts : Nat
deriving Repr

/-- Fall-through result `{success: false, error: 'Max retries exceeded'}`. -/
def maxRetriesMsg : Str := "Max retries exceeded".data

/-- One execution of the retry `while` loop body (lines 2712-2916 /
3589-3737), with `fuel` bounding the remaining iterations. -/
def retryRun (f : Nat → Except Str α) (b : Nat → Nat) (maxR : Nat) :
    Nat → Nat → RetryOutcome α
  | _, 0 => ⟨.error maxRetriesMsg, [], 0⟩
  | retries, fuel + 1 =>
    match f retries with
    | .ok v => ⟨.ok v, [], 1⟩
    | .error e =>
      if maxR ≤ retries + 1 then ⟨.error e, [], 1⟩
      else
            let rr := retryRun f b maxR (retries + 1) fuel
            ⟨rr.result, b (retries + 1) :: rr.delays, rr.attempts + 1⟩

/-- The full retry loop starting at `retries = 0`. -/
def retryLoop (f : Nat → Except Str α) (b : Nat → Nat) (maxR : Nat) :
    RetryOutcome α :=
  retryRun f b maxR 0 maxR

/-- Zhipu backoff (line 2913):
`Math.min(500 * Math.pow(2, retries - 1), 2000)`. -/
def zhipuBackoff (retries : Nat) : Nat := min (500 * 2 ^ (retries - 1)) 2000

/-- OpenRouter backoff (line 3735): `1000 * retries`. -/
def openRouterBackoff (retries : Nat) : Nat := 1000 * retries

/-! ## Backend error classification (`translateWithZhipuAI`
lines 2785-2801, `translateWithOpenRouter` lines 3664-3687,
`translateWithCustomAPI` lines 4125-4157). -/

/-- The dedicated 401 message thrown at line 2790. -/
def zhipuAuthMsg : Str := "智谱AI API Key 无效或已过期，请检查您的API Key设置".data

/-- The generic non-OK message thrown at line 2793,
`` `API 调用失败: ${response.status} - ${...}` ``. -/
def apiFailMsg (status : Nat) (detail : Str) : Str :=
  "API 调用失败: ".data ++ natStr status ++ " - ".data ++ detail

/-- Error message selection for a non-OK Zhipu response (lines 2785-2793):
status 401 gets the dedicated credential message, anything else the
generic one. -/
def zhipuErrorMsg (status : Nat) (detail : Str) : Str :=
  if status = 401 then zhipuAuthMsg else apiFailMsg status detail

/-- Line 2800: `'API 返回了空响应'`. -/
def emptyRespMsg : Str := "API 返回了空响应".data

/-- Outcome of a Zhipu batch request, given the HTTP status, the error
detail text, and the optional completion content (lines 2785-2801):
non-2xx throws, then an absent or whitespace-only completion throws,
otherwise the trimmed completion is returned. -/
def zhipuHandleResponse (status : Nat) (detail : Str) (content : Option Str) :
    Except Str Str :=
  if ¬(200 ≤ status ∧ status ≤ 299) then .error (zhipuErrorMsg status detail)
  else
    match content with
    | none => .error emptyRespMsg
    | some c => if trimStr c = [] then .error emptyRespMsg else .ok (trimStr c)

/-- Line 3667 dedicated OpenRouter 401 message. -/
def orAuthMsg : Str := "OpenRouter API Key 无效或已过期，请检查您的API Key设置".data

/-- Line 3686: `'API 返回数据格式不正确'`. -/
def orFmtMsg : Str := "API 返回数据格式不正确".data

/-- Error message for a non-OK OpenRouter response (lines 3664-3681). -/
def orErrorMsg (status : Nat) (detail : Str) : Str :=
  if status = 401 then orAuthMsg
  else "API 调用失败: ".data ++ natStr status ++ detail

/-- Outcome of an OpenRouter batch request (lines 3664-3689): non-2xx
throws, a missing/empty completion throws the format error, otherwise the
trimmed completion is returned. -/
def openRouterHandleResponse (status : Nat) (detail : Str)
    (content : Option Str) : Except Str Str :=
  if ¬(200 ≤ status ∧ status ≤ 299) then .error (orErrorMsg status detail)
  else
    match content with
    | none => .error orFmtMsg
    | some c => if c = [] then .error orFmtMsg else .ok (trimStr c)

/-- What a `fetch` of the custom endpoint produced: a thrown network
error/abort, or a response with a status and an optional
`translated_text` body field. -/
inductive FetchOutcome where
  | fail
  | resp (status : Nat) (translated : Option Str)
deriving Repr, DecidableEq

/-- `translateWithCustomAPI` (lines 4125-4157): the whole call is wrapped
in `try/catch`; a thrown fetch or a non-OK status is caught and the
ORIGINAL text is returned (`return text; // Return original text on
error`); on success `data.translated_text || text` falls back to the
input when the field is absent or empty.  The function installs no
`AbortController` and no timeout. -/
def translateWithCustomAPI (text : Str) : FetchOutcome → Str
  | .fail => text
  | .resp status body =>
    if ¬(200 ≤ status ∧ status ≤ 299) then text
    else
      match body with
      | none => text
      | some t => if t = [] then text else t

/-- The live backend variants of `translateText` (line 2296): Zhipu AI,
OpenRouter, and the arbitrary custom endpoint (the demo stub is offline). -/
inductive Backend where
  | zhipu
  | openRouter
  | custom
deriving Repr, DecidableEq

/-- Per-backend request timeouts installed via `AbortController` +
`setTimeout(... abort, ms)`: Zhipu batch 120000 ms (line 2761) and
single-fragment retry 60000 ms (line 3010); OpenRouter batch 120000 ms
(line 3638) and single-fragment retry 60000 ms (line 3831); the custom
endpoint installs none (lines 4125-4157 contain no AbortController). -/
def requestTimeoutsMs : Backend → List Nat
  | .zhipu => [120000, 60000]
  | .openRouter => [120000, 60000]
  | .custom => []

/-! ## Bounded concurrency gate (`createSemaphore`, lines 55-71).

The semaphore is embedded as a labelled transition system over the
JavaScript event loop's observable scheduling points: a `call` event is a
new `acquire(fn)` invocation running up to its first suspension (it either
increments `running` or parks a resolver on `queue`); a `finish` event is
one running task's `finally` block (`running--` and, when the queue is
non-empty, resolving — but not yet resuming — the front waiter, which
moves to `woken`); a `resume` event is a previously resolved waiter's
continuation running `running++`.  The interleaving of these events is
exactly what the microtask queue permits. -/

structure SemState where
  running : Nat
  queue : List Nat
  woken : List Nat
deriving Repr, DecidableEq, Inhabited

inductive SemEvent where
  | call (id : Nat)
  | finish
  | resume
deriving Repr, DecidableEq

/-- One event of the semaphore transition system; `none` means the event
is not enabled in this state. -/
def semStep (maxConcurrent : Nat) (s : SemState) : SemEvent → Option SemState
  | .call i =>
    some (if maxConcurrent ≤ s.running then {s with queue := s.queue ++ [i]}
          else {s with running := s.running + 1})
  | .finish =>
    match s.running, s.queue with
    | 0, _ => none
    | r + 1, [] => some {s with running := r}
    | r + 1, w :: rest => some ⟨r, rest, s.woken ++ [w]⟩
  | .resume =>
    match s.woken with
    | [] => none
    | _ :: rest => some {s with woken := rest, running := s.running + 1}

/-- Run a sequence of events from a state. -/
def semRun (maxConcurrent : Nat) : SemState → List SemEvent → Option SemState
  | s, [] => some s
  | s, e :: rest =>
    match semStep maxConcurrent s e with
    | none => none
    | some s' => semRun maxConcurrent s' rest

/-- `createSemaphore` initial state: `running = 0`, empty queue. -/
def semInit : SemState := ⟨0, [], []⟩

theorem semRun_append (m : Nat) (a : List SemEvent) :
    ∀ (s : SemState) (b : List SemEvent),
      semRun m s (a ++ b) = (semRun m s a).bind (fun s' => semRun m s' b) := by
  induction a with
  | nil => intro s b; simp [semRun]
  | cons e rest ih =>
    intro s b
    simp only [List.cons_append, semRun]
    cases semStep m s e with
    | none => simp
    | some s' => simp [ih]

/-- During the call-only phase (all `acquire` invocations made before any
completion, as in the `batch.map` dispatch) the bound holds and nobody has
been woken. -/
theorem semRun_calls (m : Nat) (ids : List Nat) :
    ∀ s : SemState, s.running ≤ m → s.woken = [] →
      ∃ s', semRun m s (ids.map SemEvent.call) = some s' ∧
        s'.running ≤ m ∧ s'.woken = [] := by
  induction ids with
  | nil => intro s h1 h2; exact ⟨s, rfl, h1, h2⟩
  | cons i rest ih =>
    intro s h1 h2
    simp only [List.map_cons, semRun, semStep]
    split
    · rename_i hge
      exact ih _ (by simpa using h1) (by simpa using h2)
    · rename_i hlt
      push_neg at hlt
      exact ih _ (by simpa using hlt) (by simpa using h2)

/-- After the calls, any interleaving of completions and wake-ups
preserves `running + |woken| ≤ max`. -/
theorem semRun_noCalls (m : Nat) (evs : List SemEvent)
    (hnc : ∀ e ∈ evs, ∀ i, e ≠ .call i) :
    ∀ s : SemState, s.running + s.woken.length ≤ m →
      ∀ s', semRun m s evs = some s' → s'.running + s'.woken.length ≤ m := by
  induction evs with
  | nil =>
    intro s h s' h'
    simp only [semRun, Option.some.injEq] at h'
    exact h' ▸ h
  | cons e rest ih =>
    rintro ⟨r, q, w⟩ h s' h'
    have hrest : ∀ e ∈ rest, ∀ i, e ≠ SemEvent.call i :=
      fun e he i => hnc e (List.mem_cons_of_mem _ he) i
    simp only [semRun] at h'
    cases e with
    | call i => exact absurd rfl (hnc _ (List.mem_cons_self _ _) i)
    | finish =>
      rcases r with _ | r
      · simp [semStep] at h'
      · rcases q with _ | ⟨v, qrest⟩
        · simp only [semStep] at h'
          refine ih hrest _ ?_ s' h'
          simp only [List.length_cons] at h ⊢
          omega
        · simp only [semStep] at h'
          refine ih hrest _ ?_ s' h'
          simp only [List.length_append, List.length_cons, List.length_nil] at h ⊢
          omega
    | resume =>
      rcases w with _ | ⟨v, wrest⟩
      · simp [semStep] at h'
      · simp only [semStep] at h'
        refine ih hrest _ ?_ s' h'
        simp only [List.length_cons] at h ⊢
        omega

/-! ## Reconciliation: assigning split segments to fragments
(`translateWithZhipuAI` lines 2852-2880, `translateWithOpenRouter`
lines 3698-3707). -/

/-- A fragment as the reconciler sees it. -/
structure TPara where
  originalText : Str
  translatedText : Option Str := none
  skipReason : Option Str := none
deriving Repr, DecidableEq

instance : Inhabited TPara := ⟨⟨[], none, none⟩⟩

/-- `forEach((para, idx) => ...)`: map with the element index. -/
def mapIdxFrom (f : Nat → α → β) : Nat → List α → List β
  | _, [] => []
  | i, a :: rest => f i a :: mapIdxFrom f (i + 1) rest

/-- Line 2877: `` `AI返回不足（${translatedLines.length}/${expectedCount}）` ``. -/
def shortfallMsg (got expected : Nat) : Str :=
  "AI返回不足（".data ++ natStr got ++ "/".data ++ natStr expected ++ "）".data

/-- Zhipu assignment of split lines to the batch's fragments
(lines 2852-2880): exact match assigns positionally; too many lines are
merged proportionally; too few lines fill the first N fragments and mark
the remainder `translatedText = null` with a shortfall `skipReason`. -/
def assignZhipu (paras : List TPara) (lines : List Str) : List TPara :=
  if lines.length = paras.length then
    mapIdxFrom (fun i p => {p with translatedText := some (lines.getD i [])}) 0 paras
  else if paras.length < lines.length then
    let linesPerPara := (lines.length + paras.length - 1) / paras.length
    mapIdxFrom (fun i p =>
      let seg := joinSep [' '] ((lines.drop (i * linesPerPara)).take linesPerPara)
      {p with translatedText := some seg})
      0 paras
  else
    mapIdxFrom (fun i p =>
      if i < lines.length then {p with translatedText := some (lines.getD i [])}
      else {p with translatedText := none,
                   skipReason := some (shortfallMsg lines.length paras.length)})
      0 paras

/-- OpenRouter assignment of split lines to the batch's fragments
(lines 3700-3707): positional for the first N, and the remainder KEEPS
THE ORIGINAL TEXT (`para.translatedText = para.originalText; // 保持原文`)
with `skipReason` untouched. -/
def assignOpenRouter (paras : List TPara) (lines : List Str) : List TPara :=
  mapIdxFrom (fun i p =>
    if i < lines.length then {p with translatedText := some (lines.getD i [])}
    else {p with translatedText := some p.originalText}) 0 paras

theorem mapIdxFrom_getD (f : Nat → α → β) (dβ : β) (dα : α) :
    ∀ (l : List α) (k i : Nat), i < l.length →
      (mapIdxFrom f k l).getD i dβ = f (k + i) (l.getD i dα) := by
  intro l
  induction l with
  | nil => intro k i h; simp at h
  | cons a rest ih =>
    intro k i h
    match i with
    | 0 => simp [mapIdxFrom]
    | j + 1 =>
      simp only [mapIdxFrom, List.getD_cons_succ]
      rw [ih (k + 1) j (by simpa using h)]
      ring_nf

theorem mapIdxFrom_length (f : Nat → α → β) :
    ∀ (l : List α) (k : Nat), (mapIdxFrom f k l).length = l.length := by
  intro l
  induction l with
  | nil => intro k; rfl
  | cons a rest ih => intro k; simp [mapIdxFrom, ih]

/-! ## Claim theorems: grouper (C2, C10) -/

/-- A 299-character fragment followed by a 500-character fragment: the
grouper merges them (299 < soft minimum when the second arrives) into one
batch of combined length 801. -/
def cexParasC2 : List GPara :=
  [⟨List.replicate 299 'a'⟩, ⟨List.replicate 500 'b'⟩]

theorem groupParagraphs_cexC2 :
    groupParagraphs cexParasC2 = [mkGroup cexParasC2] := by
  rfl

/-- C2: FALSE as stated.  For the concrete fragment list with lengths
299 and 500 the grouper emits a single two-fragment batch whose
`combinedText.length` is 801 > 500 (the hard maximum), and neither
fragment exceeds the hard maximum — so the batch is neither within the
window nor a singleton oversized batch. -/
theorem c2_counterexample :
    ¬ ∀ g ∈ groupParagraphs cexParasC2,
        g.combinedText.length ≤ TARGET_MAX_LENGTH ∨
        (g.paragraphs.length = 1 ∧
          ∀ p ∈ g.paragraphs, TARGET_MAX_LENGTH < p.originalText.length) := by
  intro h
  have hm : mkGroup cexParasC2 ∈ groupParagraphs cexParasC2 := by
    rw [groupParagraphs_cexC2]
    exact List.mem_singleton.2 rfl
  have hlen : (mkGroup cexParasC2).combinedText.length = 801 := by rfl
  have hcnt : (mkGroup cexParasC2).paragraphs.length = 2 := by rfl
  rcases h _ hm with h1 | ⟨h1, -⟩
  · rw [hlen] at h1
    simp [TARGET_MAX_LENGTH] at h1
  · rw [hcnt] at h1
    simp at h1

/-- C2 (amended): every batch the grouper emits is either a singleton
whose lone fragment exceeds the 500-character hard maximum, or a merged
batch whose member text lengths sum to at most 799 (< soft minimum 300 +
hard maximum 500), holds at most 8 fragments each of length ≤ 500, and has
`combinedText.length ≤ 813` (the sum plus the `"\n\n"` separators); in
particular an oversized fragment is never merged with any other
fragment. -/
theorem c2_amended_batch_window (paras : List GPara) (g : Group)
    (hg : g ∈ groupParagraphs paras) : GroupOk g :=
  groupGo_ok paras [] 0 rfl (by simp [sumLens]) (by simp) (by simp) g hg

theorem c2_amended_batch_window_witness : GroupOk (mkGroup cexParasC2) :=
  c2_amended_batch_window cexParasC2 (mkGroup cexParasC2)
    (by rw [groupParagraphs_cexC2]; exact List.mem_singleton.2 rfl)

/-- C10: the batches produced by the grouper form an ordered partition of
the input fragment list — concatenating the batches' fragment lists in
batch order yields exactly the input list. -/
theorem c10_grouping_partition (paras : List GPara) :
    ((groupParagraphs paras).map (·.paragraphs)).flatten = paras := by
  simpa using groupGo_flatten paras [] 0

/-! ## Claim theorems: cache key (C5) -/

/-- Two distinct 21-character texts sharing their first 20 characters and
their length. -/
def cexT1 : Str := List.replicate 20 'a' ++ ['x']
/-- Differs from `cexT1` only in the last character. -/
def cexT2 : Str := List.replicate 20 'a' ++ ['y']

/-- C5: the code violates the claim.  `getCacheKey` keys on
`(first 20 chars, prefix length, total length, language pair)` only, so
the two distinct texts `cexT1` and `cexT2` collide, and a value cached
for `cexT1` is returned by a lookup for `cexT2` — a cache get returns a
translation stored for different content.  (The spec itself flags the
truncated key as a latent bug to be fixed, §9.) -/
theorem c5_cache_key_collision :
    cexT1 ≠ cexT2 ∧
    getCacheKey cexT1 ['e', 'n'] ['z', 'h'] =
      getCacheKey cexT2 ['e', 'n'] ['z', 'h'] ∧
    getFromCache (addToCache [] cexT1 ['e', 'n'] ['z', 'h'] ['V'])
      cexT2 ['e', 'n'] ['z', 'h'] = some ['V'] := by
  refine ⟨by decide, by decide, by decide⟩

/-! ## Claim theorems: retry controller (C6) and 401 handling (C7) -/

/-- C6: a batch request that throws on the first two attempts and
succeeds on the third returns the successful result, after waiting
backoff delays of 500 ms then 1000 ms on the Zhipu path
(`min(500·2^(r-1), 2000)`, doubling under the 2000 ms cap) and
1000 ms then 2000 ms on the OpenRouter path — in both cases the second
delay doubles the first. -/
theorem c6_retry_two_failures_then_success {α : Type}
    (f g : Nat → Except Str α) (v w : α) (e0 e1 e0' e1' : Str)
    (hf0 : f 0 = .error e0) (hf1 : f 1 = .error e1) (hf2 : f 2 = .ok v)
    (hg0 : g 0 = .error e0') (hg1 : g 1 = .error e1') (hg2 : g 2 = .ok w) :
    retryLoop f zhipuBackoff 3 = ⟨.ok v, [500, 1000], 3⟩ ∧
    retryLoop g openRouterBackoff 3 = ⟨.ok w, [1000, 2000], 3⟩ := by
  constructor
  · simp [retryLoop, retryRun, hf0, hf1, hf2, zhipuBackoff]
  · simp [retryLoop, retryRun, hg0, hg1, hg2, openRouterBackoff]

/-- Concrete attempt function: attempts 0 and 1 throw, attempt 2
succeeds. -/
def exAttempts : Nat → Except Str Nat :=
  fun n => if 2 ≤ n then .ok 7 else .error ['e']

theorem c6_retry_witness :
    retryLoop exAttempts zhipuBackoff 3 = ⟨.ok 7, [500, 1000], 3⟩ ∧
    retryLoop exAttempts openRouterBackoff 3 = ⟨.ok 7, [1000, 2000], 3⟩ :=
  c6_retry_two_failures_then_success exAttempts exAttempts 7 7
    ['e'] ['e'] ['e'] ['e'] rfl rfl rfl rfl rfl rfl

/-- Concrete attempt function: every attempt throws the 401 credential
error. -/
def exAuthAttempts : Nat → Except Str Nat :=
  fun _ => .error (zhipuErrorMsg 401 [])

/-- C7: FALSE as stated.  A Zhipu request that returns HTTP 401 on every
attempt is NOT surfaced immediately: the thrown credential error lands in
the same `catch` as transient errors, so the loop makes all 3 attempts
and waits the 500 ms and 1000 ms backoff delays before giving up —
consuming retry attempts exactly like a transient failure, with no halt
of further dispatch. -/
theorem c7_counterexample :
    retryLoop exAuthAttempts zhipuBackoff 3 =
      ⟨.error zhipuAuthMsg, [500, 1000], 3⟩ ∧
    (3 : Nat) ≠ 1 := by
  constructor
  · simp [retryLoop, retryRun, exAuthAttempts, zhipuErrorMsg, zhipuBackoff]
  · decide

/-- C7 (amended): an HTTP 401 from the Zhipu backend does produce a
distinct, user-actionable error message (different from the message for
any other status), but it is retried like a transient failure: with the
401 thrown on every attempt the loop still makes all 3 attempts with
backoff delays 500 ms and 1000 ms and only then returns the credential
error; dispatch of other batches is not halted. -/
theorem c7_amended_auth_distinct_but_retried {α : Type} (d : Str) (s : Nat)
    (hs : s ≠ 401) (f : Nat → Except Str α)
    (hf : ∀ n, f n = .error (zhipuErrorMsg 401 d)) :
    zhipuErrorMsg 401 d ≠ zhipuErrorMsg s d ∧
    retryLoop f zhipuBackoff 3 =
      ⟨.error (zhipuErrorMsg 401 d), [500, 1000], 3⟩ := by
  constructor
  · intro h
    have hA : (zhipuErrorMsg 401 d).headI = '智' := rfl
    have hB : (zhipuErrorMsg s d).headI = 'A' := by
      unfold zhipuErrorMsg
      rw [if_neg hs]
      rfl
    rw [h, hB] at hA
    exact absurd hA (by decide)
  · simp [retryLoop, retryRun, hf 0, hf 1, hf 2, zhipuBackoff]

theorem c7_amended_witness :
    zhipuErrorMsg 401 [] ≠ zhipuErrorMsg 500 [] ∧
    retryLoop exAuthAttempts zhipuBackoff 3 =
      ⟨.error (zhipuErrorMsg 401 []), [500, 1000], 3⟩ :=
  c7_amended_auth_distinct_but_retried [] 500 (by decide)
    exAuthAttempts (fun _ => rfl)

/-! ## Claim theorems: concurrency gate (C8) -/

/-- The violating schedule: with `maxConcurrent = 1`, task 0 acquires,
caller 1 parks; task 0 finishes and resolves caller 1; BEFORE caller 1's
continuation runs, a fresh caller 2 acquires (it sees `running = 0` and
proceeds); then caller 1's continuation executes its unconditional
`running++`. -/
def cexSemTrace : List SemEvent :=
  [.call 0, .call 1, .finish, .call 2, .resume]

/-- C8: FALSE as stated.  The semaphore's waiter performs `running++`
unconditionally after being woken, without re-checking the limit, so the
schedule `cexSemTrace` reaches `running = 2` under `maxConcurrent = 1`:
the gate bound does not hold for every sequence of acquire calls and
completions. -/
theorem c8_counterexample :
    semRun 1 semInit cexSemTrace = some ⟨2, [], []⟩ ∧ 1 < 2 := by
  refine ⟨by rfl, by decide⟩

/-- C8 (amended): the bound `running ≤ maxConcurrent` holds for every
schedule in which all acquire calls are issued before the first completion
— the shape actually produced by the program, whose `batch.map` issues
every `translationSemaphore(...)` call synchronously before any request
resolves.  (Every prefix of such a schedule has the same shape, so the
bound holds at every instant.) -/
theorem c8_amended_gate_bound (m : Nat) (ids : List Nat)
    (rest : List SemEvent) (hrest : ∀ e ∈ rest, ∀ i, e ≠ .call i)
    (s : SemState)
    (hrun : semRun m semInit (ids.map SemEvent.call ++ rest) = some s) :
    s.running ≤ m := by
  rw [semRun_append] at hrun
  obtain ⟨s1, hs1, hr1, hw1⟩ :=
    semRun_calls m ids semInit (by simp [semInit]) (by simp [semInit])
  rw [hs1] at hrun
  have hrun' : semRun m s1 rest = some s := hrun
  have h2 := semRun_noCalls m rest hrest s1 (by rw [hw1]; simpa using hr1) s hrun'
  omega

theorem c8_amended_gate_bound_witness :
    (⟨1, [], []⟩ : SemState).running ≤ 2 :=
  c8_amended_gate_bound 2 [0, 1, 2] [.finish, .resume, .finish]
    (by intro e he i h; subst h; simp at he) ⟨1, [], []⟩ (by rfl)

/-! ## Claim theorems: backend timeouts and failure surfacing (C9) -/

/-- C9: FALSE as stated.  The custom-endpoint variant is a live backend
yet installs no request timeout at all, and it surfaces request failure
by silently returning the untranslated input: both a thrown fetch and a
non-OK HTTP status produce `text` itself. -/
theorem c9_counterexample :
    requestTimeoutsMs .custom = [] ∧
    translateWithCustomAPI ['h', 'i'] .fail = ['h', 'i'] ∧
    translateWithCustomAPI ['h', 'i'] (.resp 500 none) = ['h', 'i'] := by
  refine ⟨rfl, rfl, by decide⟩

/-- C9 (amended): the two hosted gateway variants impose request timeouts
of 120 s (batch call) and 60 s (single-fragment retry call), all within
the 60–120 s order, and surface every non-OK response by throwing an
error; the custom-endpoint variant imposes no timeout and returns the
untranslated input on any failure. -/
theorem c9_amended_timeouts (status : Nat) (detail : Str)
    (content : Option Str) (hbad : ¬(200 ≤ status ∧ status ≤ 299)) :
    (∀ t ∈ requestTimeoutsMs .zhipu, 60000 ≤ t ∧ t ≤ 120000) ∧
    (∀ t ∈ requestTimeoutsMs .openRouter, 60000 ≤ t ∧ t ≤ 120000) ∧
    (∃ e, zhipuHandleResponse status detail content = .error e) ∧
    (∃ e, openRouterHandleResponse status detail content = .error e) ∧
    requestTimeoutsMs .custom = [] ∧
    (∀ text, translateWithCustomAPI text .fail = text ∧
      translateWithCustomAPI text (.resp status content) = text) := by
  refine ⟨by decide, by decide, ?_, ?_, rfl, ?_⟩
  · exact ⟨zhipuErrorMsg status detail,
      by unfold zhipuHandleResponse; rw [if_pos hbad]⟩
  · exact ⟨orErrorMsg status detail,
      by unfold openRouterHandleResponse; rw [if_pos hbad]⟩
  · intro text
    refine ⟨rfl, ?_⟩
    simp only [translateWithCustomAPI]
    rw [if_pos hbad]

theorem c9_amended_timeouts_witness :
    (∀ t ∈ requestTimeoutsMs .zhipu, 60000 ≤ t ∧ t ≤ 120000) ∧
    (∀ t ∈ requestTimeoutsMs .openRouter, 60000 ≤ t ∧ t ≤ 120000) ∧
    (∃ e, zhipuHandleResponse 500 [] none = .error e) ∧
    (∃ e, openRouterHandleResponse 500 [] none = .error e) ∧
    requestTimeoutsMs .custom = [] ∧
    (∀ text, translateWithCustomAPI text .fail = text ∧
      translateWithCustomAPI text (.resp 500 none) = text) :=
  c9_amended_timeouts 500 [] none (by decide)

/-! ## Claim theorems: shortfall reconciliation (C4) -/

/-- Three untranslated fragments. -/
def cexParasC4 : List TPara :=
  [⟨['o', '1'], none, none⟩, ⟨['o', '2'], none, none⟩, ⟨['o', '3'], none, none⟩]

/-- Only two returned segments. -/
def cexLinesC4 : List Str := [['t', '1'], ['t', '2']]

/-- C4: FALSE as stated.  On the OpenRouter reconciliation path (cited
lines 3698-3707), a batch of 3 fragments receiving 2 segments leaves the
third fragment with `translatedText = originalText` and NO `skipReason` —
not the claimed `translatedText = null` plus non-empty `skipReason`. -/
theorem c4_counterexample :
    ((assignOpenRouter cexParasC4 cexLinesC4).getD 2 default).translatedText =
      some ['o', '3'] ∧
    ((assignOpenRouter cexParasC4 cexLinesC4).getD 2 default).skipReason =
      none ∧
    some (['o', '3'] : Str) ≠ none := by
  refine ⟨by decide, by decide, by decide⟩

/-- C4 (amended): when the reconciled split yields fewer segments than
fragments, both paths assign the available segments positionally to the
first N fragments and never fabricate text; the remaining fragments are
marked for the retry pass as `translatedText = null` with a non-empty
shortfall `skipReason` on the Zhipu path, but on the OpenRouter path they
instead keep `translatedText = originalText` (the pipeline's other
untranslated marker) with `skipReason` unchanged. -/
theorem c4_amended_shortfall (paras : List TPara) (lines : List Str)
    (hlt : lines.length < paras.length) :
    (∀ i, i < lines.length →
      ((assignZhipu paras lines).getD i default).translatedText =
        some (lines.getD i []) ∧
      ((assignOpenRouter paras lines).getD i default).translatedText =
        some (lines.getD i [])) ∧
    (∀ i, lines.length ≤ i → i < paras.length →
      ((assignZhipu paras lines).getD i default).translatedText = none ∧
      ((assignZhipu paras lines).getD i default).skipReason =
        some (shortfallMsg lines.length paras.length) ∧
      shortfallMsg lines.length paras.length ≠ [] ∧
      ((assignOpenRouter paras lines).getD i default).translatedText =
        some ((paras.getD i default).originalText) ∧
      ((assignOpenRouter paras lines).getD i default).skipReason =
        (paras.getD i default).skipReason) := by
  have hz : assignZhipu paras lines =
      mapIdxFrom (fun i p =>
        if i < lines.length then {p with translatedText := some (lines.getD i [])}
        else {p with translatedText := none,
                     skipReason := some (shortfallMsg lines.length paras.length)})
        0 paras := by
    unfold assignZhipu
    rw [if_neg (by omega), if_neg (by omega)]
  constructor
  · intro i hi
    have hip : i < paras.length := by omega
    constructor
    · rw [hz, mapIdxFrom_getD _ _ default paras 0 i hip]
      simp only [Nat.zero_add]
      rw [if_pos hi]
    · rw [assignOpenRouter, mapIdxFrom_getD _ _ default paras 0 i hip]
      simp only [Nat.zero_add]
      rw [if_pos hi]
  · intro i hge hip
    have hni : ¬ i < lines.length := by omega
    refine ⟨?_, ?_, ?_, ?_, ?_⟩
    · rw [hz, mapIdxFrom_getD _ _ default paras 0 i hip]
      simp only [Nat.zero_add]
      rw [if_neg hni]
    · rw [hz, mapIdxFrom_getD _ _ default paras 0 i hip]
      simp only [Nat.zero_add]
      rw [if_neg hni]
    · intro h
      have hh : (shortfallMsg lines.length paras.length).head? = some 'A' := rfl
      rw [h] at hh
      exact absurd hh (by decide)
    · rw [assignOpenRouter, mapIdxFrom_getD _ _ default paras 0 i hip]
      simp only [Nat.zero_add]
      rw [if_neg hni]
    · rw [assignOpenRouter, mapIdxFrom_getD _ _ default paras 0 i hip]
      simp only [Nat.zero_add]
      rw [if_neg hni]

theorem c4_amended_shortfall_witness :
    ((assignZhipu cexParasC4 cexLinesC4).getD 2 default).translatedText =
      none ∧
    ((assignZhipu cexParasC4 cexLinesC4).getD 2 default).skipReason =
      some (shortfallMsg 2 3) ∧
    ((assignOpenRouter cexParasC4 cexLinesC4).getD 2 default).translatedText =
      some ['o', '3'] := by
  have h := (c4_amended_shortfall cexParasC4 cexLinesC4 (by decide)).2
    2 (by decide) (by decide)
  exact ⟨h.1, h.2.1, h.2.2.2.1⟩

/-! ## Markup document model

The parsed document (`DOMParser.parseFromString`, traversed below
`doc.body`) is a rose tree of element and text nodes.  Nodes are
addressed by their child-index path from the body root; tag names are
stored lowercase, as `tagName.toLowerCase()` produces them. -/

inductive XNode where
  | text (s : Str)
  | elem (tag : String) (children : List XNode)

instance : Inhabited XNode := ⟨.text []⟩

/-! `Node.textContent`: concatenation of all descendant text. -/
mutual

def textContent : XNode → Str
  | .text s => s
  | .elem _ cs => textContentList cs

def textContentList : List XNode → Str
  | [] => []
  | c :: rest => textContent c ++ textContentList rest

end

/-! All text nodes of a subtree with their paths, in document order
(the `TreeWalker(root, SHOW_TEXT)` iteration order). -/
mutual

def tnNode : XNode → List (List Nat × Str)
  | .text s => [([], s)]
  | .elem _ cs => tnChildren 0 cs

def tnChildren : Nat → List XNode → List (List Nat × Str)
  | _, [] => []
  | i, c :: rest =>
    (tnNode c).map (fun q => (i :: q.1, q.2)) ++ tnChildren (i + 1) rest

end

/-- Text nodes strictly below the walker root (`nextNode` never yields
the root itself). -/
def walkTexts : XNode → List (List Nat × Str)
  | .text _ => []
  | .elem _ cs => tnChildren 0 cs

/-! Node lookup by path. -/
mutual

def nodeAt : XNode → List Nat → Option XNode
  | n, [] => some n
  | .text _, _ :: _ => none
  | .elem _ cs, i :: p => nodeAtChildren cs i p

def nodeAtChildren : List XNode → Nat → List Nat → Option XNode
  | [], _, _ => none
  | c :: _, 0, p => nodeAt c p
  | _ :: rest, i + 1, p => nodeAtChildren rest i p

end

/-- `BLOCK_TAGS` (src/js/app.js lines 84-87). -/
def blockTags : List String :=
  ["p", "div", "h1", "h2", "h3", "h4", "h5", "h6",
   "li", "td", "th", "blockquote", "article", "section", "header", "footer",
   "aside", "main", "nav", "figure", "figcaption", "caption", "address",
   "pre", "dl", "dt", "dd"]

/-- The tag of the element at a path, when the path leads to an element. -/
def tagAt (body : XNode) (q : List Nat) : Option String :=
  match nodeAt body q with
  | some (.elem t _) => some t
  | _ => none

/-- `BLOCK_TAGS.has(element.tagName.toLowerCase())` at a path. -/
def isBlockAt (body : XNode) (q : List Nat) : Bool :=
  match tagAt body q with
  | some t => blockTags.contains t
  | none => false

/-- The upward walk of lines 2469-2476: starting from the node's parent,
try ever-shorter ancestor paths (stopping before the body root, which the
loop's `element !== doc.body` guard excludes) and return the first — i.e.
nearest — ancestor whose tag is block-level. -/
def nbAux (body : XNode) (p : List Nat) : Nat → Option (List Nat)
  | 0 => none
  | k + 1 =>
    if isBlockAt body (p.take (k + 1)) then some (p.take (k + 1))
    else nbAux body p k

/-- Nearest block-level ancestor path of the text node at `p`. -/
def nearestBlock (body : XNode) (p : List Nat) : Option (List Nat) :=
  nbAux body p (p.length - 1)

/-! `element.innerHTML.includes('<br')` (line 2485): some descendant
element's serialized tag begins with `br` (text content is entity-escaped
by serialization and cannot contribute a `<`). -/
mutual

def hasBrIn : XNode → Bool
  | .text _ => false
  | .elem tag cs => "br".isPrefixOf tag || hasBrInList cs

def hasBrInList : List XNode → Bool
  | [] => false
  | c :: rest => hasBrIn c || hasBrInList rest

end

/-- `innerHTML.includes('<br')` on an element: checked over its children's
subtrees (the element's own tag is not part of its innerHTML). -/
def hasBrTags : XNode → Bool
  | .text _ => false
  | .elem _ cs => hasBrInList cs

/-! `<br>` elements have no children — guaranteed by the HTML parser
(`parseFromString(text, 'text/html')` auto-closes void elements). -/
mutual

def brChildless : XNode → Bool
  | .text _ => true
  | .elem tag cs => (tag != "br" || cs.isEmpty) && brChildlessList cs

def brChildlessList : List XNode → Bool
  | [] => true
  | c :: rest => brChildless c && brChildlessList rest

end

/-- The `<br>`-splitting child scan of lines 2490-2532: accumulate the
text of the block's children into `currentText`, flushing a trimmed
sub-paragraph at each `br` child and at the end; `a` children contribute
their link text preceded by a space unless the accumulator ends in a line
break; other element children contribute their whole text content when it
is not pure whitespace. -/
def spGo : List XNode → Str → List Str
  | [], cur => if trimStr cur = [] then [] else [trimStr cur]
  | c :: rest, cur =>
    match c with
    | .text t =>
      if t.head? = some '　' ∨ trimStr t ≠ [] then spGo rest (cur ++ t)
      else spGo rest cur
    | .elem tag cs =>
      if tag = "br" then
        if trimStr cur = [] then spGo rest cur
        else trimStr cur :: spGo rest []
      else if tag = "a" then
        if trimStr (textContentList cs) = [] then spGo rest cur
        else spGo rest
          ((if cur ≠ [] ∧ cur.getLast? ≠ some '\n' then cur ++ [' '] else cur) ++
            textContentList cs)
      else
        if trimStr (textContentList cs) = [] then spGo rest cur
        else spGo rest (cur ++ textContentList cs)

/-- `subParagraphs` collected for a `<br>`-separated block element. -/
def subParagraphs : XNode → List Str
  | .text _ => []
  | .elem _ cs => spGo cs []


/-! ## Fragment extractor (`translateWithZhipuAI` lines 2437-2571; the
OpenRouter extractor, lines 3313-3448, is the identical algorithm). -/

/-- An extracted fragment: its anchor element path (for inline fragments,
the parent element's path), its trimmed original text, the inline flag,
and for inline fragments the saved text-node path. -/
structure Frag where
  anchor : List Nat
  originalText : Str
  isInline : Bool
  nodePath : Option (List Nat)
deriving Repr, DecidableEq

/-- Extraction state: the `processedElements` visited-set (element paths)
and the `paragraphs` array so far. -/
structure ExtState where
  processed : List (List Nat)
  frags : List Frag

/-- The walker's `acceptNode` filter (lines 2441-2452): reject
whitespace-only nodes and nodes whose parent element is `script` or
`style`. -/
def acceptNode (body : XNode) (p : List Nat) (s : Str) : Bool :=
  !allWs s &&
  !(tagAt body p.dropLast = some "script" ∨ tagAt body p.dropLast = some "style")

/-- The walker loop body for one text node (lines 2461-2570). -/
def extractStep (body : XNode) (st : ExtState) (ps : List Nat × Str) :
    ExtState :=
  if acceptNode body ps.1 ps.2 then
    let t := trimStr ps.2
    if t.length = 0 then st
    else
      match nearestBlock body ps.1 with
      | some q =>
        if q ∈ st.processed then st
        else
          let E := (nodeAt body q).getD (.text [])
          let trimText := trimStr (textContent E)
          if hasBrTags E = true ∧ trimText ≠ [] then
            ⟨st.processed ++ [q],
             st.frags ++ ((subParagraphs E).filter (fun par => 1 ≤ par.length)).map
               (fun par => ⟨q, par, false, none⟩)⟩
          else if trimText ≠ [] then
            ⟨st.processed ++ [q], st.frags ++ [⟨q, trimText, false, none⟩]⟩
          else ⟨st.processed ++ [q], st.frags⟩
      | none =>
        ⟨st.processed, st.frags ++ [⟨ps.1.dropLast, t, true, some ps.1⟩]⟩
  else st

/-- The full extraction pass over all text nodes in document order. -/
def extractFragments (body : XNode) : List Frag :=
  ((walkTexts body).foldl (extractStep body) ⟨[], []⟩).frags

/-! ### Structural lemmas about the document model -/

theorem mem_of_getElemQ : ∀ (l : List α) (i : Nat) (a : α),
    l[i]? = some a → a ∈ l := by
  intro l
  induction l with
  | nil => intro i a h; simp at h
  | cons b rest ih =>
    intro i a h
    match i with
    | 0 =>
      simp only [List.getElem?_cons_zero, Option.some.injEq] at h
      exact h ▸ List.mem_cons_self _ _
    | j + 1 =>
      simp only [List.getElem?_cons_succ] at h
      exact List.mem_cons_of_mem _ (ih j a h)

theorem allWs_sublist {s t : Str} (h : s.Sublist t) (ht : allWs t = true) :
    allWs s = true := by
  rw [allWs, List.all_eq_true] at *
  exact fun x hx => ht x (h.subset hx)

theorem nbAux_spec (body : XNode) (p : List Nat) :
    ∀ (k : Nat) (q : List Nat), nbAux body p k = some q →
      ∃ j, 1 ≤ j ∧ j ≤ k ∧ q = p.take j ∧ isBlockAt body q = true := by
  intro k
  induction k with
  | zero => intro q h; simp [nbAux] at h
  | succ k ih =>
    intro q h
    simp only [nbAux] at h
    split at h
    · rename_i hblk
      cases h
      exact ⟨k + 1, by omega, by omega, rfl, hblk⟩
    · obtain ⟨j, h1, h2, h3, h4⟩ := ih q h
      exact ⟨j, h1, by omega, h3, h4⟩

theorem nearestBlock_spec (body : XNode) (p : List Nat) (q : List Nat)
    (h : nearestBlock body p = some q) :
    q <+: p ∧ q.length < p.length ∧ isBlockAt body q = true := by
  obtain ⟨j, h1, h2, h3, h4⟩ := nbAux_spec body p (p.length - 1) q h
  subst h3
  refine ⟨List.take_prefix j p, ?_, h4⟩
  rw [List.length_take]
  have hp : 1 ≤ p.length := by
    by_contra hc
    have : p.length = 0 := by omega
    omega
  omega

theorem nodeAt_nil (n : XNode) : nodeAt n [] = some n := by
  cases n <;> rfl

theorem isBlockAt_elem (body : XNode) (q : List Nat)
    (h : isBlockAt body q = true) :
    ∃ t cs, nodeAt body q = some (.elem t cs) := by
  unfold isBlockAt tagAt at h
  rcases hn : nodeAt body q with _ | n
  · rw [hn] at h; simp at h
  · rw [hn] at h
    cases n with
    | text s => simp at h
    | elem t cs => exact ⟨t, cs, rfl⟩

theorem nodeAtChildren_getElem :
    ∀ (cs : List XNode) (i : Nat) (p : List Nat) (c : XNode),
      cs[i]? = some c → nodeAtChildren cs i p = nodeAt c p := by
  intro cs
  induction cs with
  | nil => intro i p c h; simp at h
  | cons c0 rest ih =>
    intro i p c h
    match i with
    | 0 =>
      simp only [List.getElem?_cons_zero, Option.some.injEq] at h
      subst h
      rfl
    | j + 1 =>
      simp only [List.getElem?_cons_succ] at h
      exact ih j p c h

theorem tnChildren_mem :
    ∀ (cs : List XNode) (k : Nat) (pr : List Nat) (s : Str),
      (pr, s) ∈ tnChildren k cs →
      ∃ j c r, cs[j]? = some c ∧ pr = (k + j) :: r ∧ (r, s) ∈ tnNode c := by
  intro cs
  induction cs with
  | nil => intro k pr s h; simp [tnChildren] at h
  | cons c0 rest ih =>
    intro k pr s h
    simp only [tnChildren, List.mem_append, List.mem_map] at h
    rcases h with ⟨⟨r, s'⟩, hmem, heq⟩ | h
    · simp only [Prod.mk.injEq] at heq
      obtain ⟨heq1, heq2⟩ := heq
      subst heq1
      subst heq2
      exact ⟨0, c0, r, by simp, by simp, hmem⟩
    · obtain ⟨j, c, r, h1, h2, h3⟩ := ih (k + 1) pr s h
      exact ⟨j + 1, c, r, by simpa using h1, by rw [h2]; ring_nf, h3⟩

theorem tn_descend :
    ∀ (q : List Nat) (n : XNode) (p : List Nat) (s : Str),
      (p, s) ∈ tnNode n → q <+: p →
      ∃ m, nodeAt n q = some m ∧ (p.drop q.length, s) ∈ tnNode m := by
  intro q
  induction q with
  | nil =>
    intro n p s hmem _
    exact ⟨n, nodeAt_nil n, by simpa using hmem⟩
  | cons i q' ih =>
    intro n p s hmem hpre
    obtain ⟨p', rfl, hpre'⟩ : ∃ p', p = i :: p' ∧ q' <+: p' := by
      rcases hpre with ⟨tail, htail⟩
      cases p with
      | nil => simp at htail
      | cons a p' =>
        rw [List.cons_append] at htail
        injection htail with h1 h2
        exact ⟨p', by rw [h1], ⟨tail, h2⟩⟩
    cases n with
    | text t =>
      simp only [tnNode, List.mem_singleton, Prod.mk.injEq] at hmem
      exact absurd hmem.1 (by simp)
    | elem tag cs =>
      simp only [tnNode] at hmem
      obtain ⟨j, c, r, h1, h2, h3⟩ := tnChildren_mem cs 0 (i :: p') s hmem
      simp only [Nat.zero_add, List.cons.injEq] at h2
      obtain ⟨rfl, rfl⟩ := h2
      obtain ⟨m, hm1, hm2⟩ := ih c p' s h3 hpre'
      refine ⟨m, ?_, ?_⟩
      · show nodeAtChildren cs i q' = some m
        rw [nodeAtChildren_getElem cs i q' c h1]
        exact hm1
      · simpa using hm2

theorem textContent_sublist_of_mem :
    ∀ (cs : List XNode) (c : XNode), c ∈ cs →
      (textContent c).Sublist (textContentList cs) := by
  intro cs
  induction cs with
  | nil => intro c h; simp at h
  | cons c0 rest ih =>
    intro c h
    rcases List.mem_cons.1 h with rfl | h
    · show (textContent c).Sublist (textContent c ++ textContentList rest)
      exact List.sublist_append_left _ _
    · show (textContent c).Sublist (textContent c0 ++ textContentList rest)
      exact (ih c h).trans (List.sublist_append_right _ _)

theorem tn_mem_sublist :
    ∀ (pr : List Nat) (n : XNode) (s : Str),
      (pr, s) ∈ tnNode n → s.Sublist (textContent n) := by
  intro pr
  induction pr with
  | nil =>
    intro n s hmem
    cases n with
    | text t =>
      simp only [tnNode, List.mem_singleton, Prod.mk.injEq] at hmem
      rw [hmem.2]
      exact List.Sublist.refl _
    | elem tag cs =>
      simp only [tnNode] at hmem
      obtain ⟨j, c, r, h1, h2, h3⟩ := tnChildren_mem cs 0 [] s hmem
      simp at h2
  | cons i pr' ih =>
    intro n s hmem
    cases n with
    | text t =>
      simp only [tnNode, List.mem_singleton, Prod.mk.injEq] at hmem
      exact absurd hmem.1 (by simp)
    | elem tag cs =>
      simp only [tnNode] at hmem
      obtain ⟨j, c, r, h1, h2, h3⟩ := tnChildren_mem cs 0 (i :: pr') s hmem
      simp only [Nat.zero_add, List.cons.injEq] at h2
      obtain ⟨rfl, rfl⟩ := h2
      exact (ih c s h3).trans
        (textContent_sublist_of_mem cs c (mem_of_getElemQ cs i c h1))

theorem brChildlessList_mem :
    ∀ (cs : List XNode) (c : XNode), brChildlessList cs = true → c ∈ cs →
      brChildless c = true := by
  intro cs
  induction cs with
  | nil => intro c _ h; simp at h
  | cons c0 rest ih =>
    intro c hall h
    have hall' : brChildless c0 = true ∧ brChildlessList rest = true := by
      simpa [brChildlessList, Bool.and_eq_true] using hall
    rcases List.mem_cons.1 h with rfl | h
    · exact hall'.1
    · exact ih c hall'.2 h

theorem brChildless_nodeAt :
    ∀ (q : List Nat) (n : XNode) (E : XNode), brChildless n = true →
      nodeAt n q = some E → brChildless E = true := by
  intro q
  induction q with
  | nil =>
    intro n E h hn
    rw [nodeAt_nil n] at hn
    injection hn with hn
    exact hn ▸ h
  | cons i q' ih =>
    intro n E h hn
    cases n with
    | text t => simp [nodeAt] at hn
    | elem tag cs =>
      have hcs : brChildlessList cs = true := by
        simp only [brChildless, Bool.and_eq_true] at h
        exact h.2
      show brChildless E = true
      rcases hc : cs[i]? with _ | c
      · rw [show nodeAt (XNode.elem tag cs) (i :: q') = nodeAtChildren cs i q'
            from rfl] at hn
        have : nodeAtChildren cs i q' = none := by
          clear hn h hcs
          induction cs generalizing i with
          | nil => rfl
          | cons c0 rest ih2 =>
            match i with
            | 0 => simp at hc
            | j + 1 =>
              simp only [List.getElem?_cons_succ] at hc
              exact ih2 j hc
        rw [this] at hn
        exact absurd hn (by simp)
      · have := nodeAtChildren_getElem cs i q' c hc
        rw [show nodeAt (XNode.elem tag cs) (i :: q') = nodeAtChildren cs i q'
            from rfl, this] at hn
        exact ih c E (brChildlessList_mem cs c hcs (mem_of_getElemQ cs i c hc)) hn

/-! ### Lemmas about the `<br>`-split scan -/

theorem spGo_eq_nil :
    ∀ (cs : List XNode) (cur : Str), spGo cs cur = [] →
      brChildlessList cs = true →
      allWs cur = true ∧ allWs (textContentList cs) = true := by
  intro cs
  induction cs with
  | nil =>
    intro cur h _
    simp only [spGo] at h
    split at h
    · rename_i hc
      exact ⟨(trimStr_eq_nil_iff cur).1 hc, rfl⟩
    · simp at h
  | cons c rest ih =>
    intro cur h hbr
    have hbr' : brChildless c = true ∧ brChildlessList rest = true := by
      simpa [brChildlessList, Bool.and_eq_true] using hbr
    cases c with
    | text t =>
      simp only [spGo] at h
      split at h
      · obtain ⟨h1, h2⟩ := ih (cur ++ t) h hbr'.2
        rw [allWs_append] at h1
        simp only [Bool.and_eq_true] at h1
        refine ⟨h1.1, ?_⟩
        show allWs (t ++ textContentList rest) = true
        rw [allWs_append]
        simp [h1.2, h2]
      · rename_i hcond
        push_neg at hcond
        have ht : allWs t = true := (trimStr_eq_nil_iff t).1 hcond.2
        obtain ⟨h1, h2⟩ := ih cur h hbr'.2
        refine ⟨h1, ?_⟩
        show allWs (t ++ textContentList rest) = true
        rw [allWs_append]
        simp [ht, h2]
    | elem tag cs' =>
      simp only [spGo] at h
      by_cases htag : tag = "br"
      · rw [if_pos htag] at h
        have hempty : cs' = [] := by
          subst htag
          simp only [brChildless, Bool.and_eq_true] at hbr'
          have := hbr'.1.1
          simp only [bne_self_eq_false, Bool.false_or] at this
          exact List.isEmpty_iff.1 this
        subst hempty
        split at h
        · obtain ⟨h1, h2⟩ := ih cur h hbr'.2
          exact ⟨h1, by
            show allWs (textContentList [] ++ textContentList rest) = true
            simpa [textContentList] using h2⟩
        · simp at h
      · rw [if_neg htag] at h
        by_cases hta : tag = "a"
        · rw [if_pos hta] at h
          split at h
          · rename_i hlk
            obtain ⟨h1, h2⟩ := ih cur h hbr'.2
            refine ⟨h1, ?_⟩
            show allWs (textContent (XNode.elem tag cs') ++
              textContentList rest) = true
            rw [allWs_append]
            have : allWs (textContentList cs') = true :=
              (trimStr_eq_nil_iff _).1 hlk
            simp only [textContent]
            simp [this, h2]
          · rename_i hlk
            obtain ⟨h1, h2⟩ := ih _ h hbr'.2
            rw [allWs_append] at h1
            simp only [Bool.and_eq_true] at h1
            exact absurd ((trimStr_eq_nil_iff _).2 h1.2) hlk
        · rw [if_neg hta] at h
          split at h
          · rename_i hlk
            obtain ⟨h1, h2⟩ := ih cur h hbr'.2
            refine ⟨h1, ?_⟩
            show allWs (textContent (XNode.elem tag cs') ++
              textContentList rest) = true
            rw [allWs_append]
            have : allWs (textContentList cs') = true :=
              (trimStr_eq_nil_iff _).1 hlk
            simp only [textContent]
            simp [this, h2]
          · rename_i hlk
            obtain ⟨h1, h2⟩ := ih _ h hbr'.2
            rw [allWs_append] at h1
            simp only [Bool.and_eq_true] at h1
            exact absurd ((trimStr_eq_nil_iff _).2 h1.2) hlk

theorem spGo_mem_ne_nil :
    ∀ (cs : List XNode) (cur : Str) (x : Str), x ∈ spGo cs cur → x ≠ [] := by
  intro cs
  induction cs with
  | nil =>
    intro cur x h
    simp only [spGo] at h
    split at h
    · simp at h
    · rename_i hc
      rw [List.mem_singleton] at h
      exact h ▸ hc
  | cons c rest ih =>
    intro cur x h
    cases c with
    | text t =>
      simp only [spGo] at h
      split at h
      · exact ih _ x h
      · exact ih _ x h
    | elem tag cs' =>
      simp only [spGo] at h
      by_cases htag : tag = "br"
      · rw [if_pos htag] at h
        split at h
        · exact ih _ x h
        · rename_i hc
          rcases List.mem_cons.1 h with rfl | h
          · exact hc
          · exact ih _ x h
      · rw [if_neg htag] at h
        by_cases hta : tag = "a"
        · rw [if_pos hta] at h
          split at h
          · exact ih _ x h
          · exact ih _ x h
        · rw [if_neg hta] at h
          split at h
          · exact ih _ x h
          · exact ih _ x h

theorem subPars_filter_ne_nil (tag : String) (cs : List XNode)
    (hbr : brChildlessList cs = true)
    (hts : trimStr (textContentList cs) ≠ []) :
    (subParagraphs (.elem tag cs)).filter (fun par => 1 ≤ par.length) ≠ [] := by
  have h1 : spGo cs [] ≠ [] := by
    intro h
    exact hts ((trimStr_eq_nil_iff _).2 (spGo_eq_nil cs [] h hbr).2)
  show (spGo cs []).filter (fun par => 1 ≤ par.length) ≠ []
  cases hsp : spGo cs [] with
  | nil => exact absurd hsp h1
  | cons x xs =>
    have hx : x ≠ [] :=
      spGo_mem_ne_nil cs [] x (hsp ▸ List.mem_cons_self _ _)
    have hlx : decide (1 ≤ x.length) = true := by
      rw [decide_eq_true_iff]
      cases x with
      | nil => exact absurd rfl hx
      | cons a as => simp
    simp only [List.filter, hlx]
    simp

/-! ### The extraction no-loss invariant -/

/-- Every visited element path owns at least one non-inline fragment
anchored at it. -/
def ExtInv (st : ExtState) : Prop :=
  ∀ q ∈ st.processed, ∃ f ∈ st.frags, f.isInline = false ∧ f.anchor = q

/-- Fragment `f` accounts for the text node at path `p`: a block-anchored
fragment whose anchor element contains the node, or the inline fragment
created for the node itself. -/
def FragFor (f : Frag) (p : List Nat) : Prop :=
  (f.isInline = false ∧ f.anchor <+: p) ∨ (f.isInline = true ∧ f.nodePath = some p)

theorem extractStep_mono (body : XNode) (st : ExtState) (x : List Nat × Str) :
    ∃ tail, (extractStep body st x).frags = st.frags ++ tail := by
  simp only [extractStep]
  split
  · split
    · exact ⟨[], by simp⟩
    · split
      · split
        · exact ⟨[], by simp⟩
        · split
          · exact ⟨_, rfl⟩
          · split
            · exact ⟨_, rfl⟩
            · exact ⟨[], by simp⟩
      · exact ⟨_, rfl⟩
  · exact ⟨[], by simp⟩

theorem walkTexts_sub_tn (body : XNode) (x : List Nat × Str)
    (h : x ∈ walkTexts body) : x ∈ tnNode body := by
  cases body with
  | text s => simp [walkTexts] at h
  | elem t cs => exact h

theorem extractStep_inv_handles (body : XNode)
    (hbody : brChildless body = true) (st : ExtState) (hinv : ExtInv st)
    (x : List Nat × Str) (hx : x ∈ walkTexts body) :
    ExtInv (extractStep body st x) ∧
    (acceptNode body x.1 x.2 = true →
      ∃ f ∈ (extractStep body st x).frags, FragFor f x.1) := by
  simp only [extractStep]
  split
  case isFalse hacc => exact ⟨hinv, fun h => absurd h hacc⟩
  case isTrue hacc =>
    have hallws : allWs x.2 = false := by
      simp only [acceptNode, Bool.and_eq_true, Bool.not_eq_true'] at hacc
      exact hacc.1
    split
    case isTrue ht0 =>
      exfalso
      exact trimStr_ne_nil_of_not_allWs hallws (List.length_eq_zero.1 ht0)
    case isFalse ht0 =>
      split
      case h_2 hq =>
        constructor
        · intro q0 hq0
          obtain ⟨f, hf, h1, h2⟩ := hinv q0 hq0
          exact ⟨f, List.mem_append_left _ hf, h1, h2⟩
        · intro _
          refine ⟨⟨x.1.dropLast, trimStr x.2, true, some x.1⟩, ?_,
            Or.inr ⟨rfl, rfl⟩⟩
          exact List.mem_append_right _ (List.mem_singleton.2 rfl)
      case h_1 q hq =>
        split
        case isTrue hqin =>
          refine ⟨hinv, fun _ => ?_⟩
          obtain ⟨f, hf, h1, h2⟩ := hinv q hqin
          obtain ⟨hpre, -, -⟩ := nearestBlock_spec body x.1 q hq
          exact ⟨f, hf, Or.inl ⟨h1, h2 ▸ hpre⟩⟩
        case isFalse hqin =>
          obtain ⟨hpre, hlen, hblk⟩ := nearestBlock_spec body x.1 q hq
          obtain ⟨t0, cs0, hnode⟩ := isBlockAt_elem body q hblk
          have hE : (nodeAt body q).getD (.text []) = .elem t0 cs0 := by
            rw [hnode]
            rfl
          obtain ⟨m, hm1, hm2⟩ :=
            tn_descend q body x.1 x.2 (walkTexts_sub_tn body x hx) hpre
          have hmeq : XNode.elem t0 cs0 = m := by
            rw [hnode] at hm1
            injection hm1
          have htex : trimStr (textContent (XNode.elem t0 cs0)) ≠ [] := by
            apply trimStr_ne_nil_of_not_allWs
            cases haw : allWs (textContent (XNode.elem t0 cs0)) with
            | false => rfl
            | true =>
              have hsub := tn_mem_sublist _ m x.2 hm2
              rw [← hmeq] at hsub
              rw [allWs_sublist hsub haw] at hallws
              exact absurd hallws (by simp)
          rw [hE, if_pos htex]
          split
          case isTrue hcond =>
            have hbrE : brChildlessList cs0 = true := by
              have := brChildless_nodeAt q body _ hbody hnode
              simp only [brChildless, Bool.and_eq_true] at this
              exact this.2
            have hne := subPars_filter_ne_nil t0 cs0 hbrE hcond.2
            have hfrag : ∃ f ∈ st.frags ++
                ((subParagraphs (.elem t0 cs0)).filter
                  (fun par => 1 ≤ par.length)).map
                  (fun par => (⟨q, par, false, none⟩ : Frag)),
                f.isInline = false ∧ f.anchor = q := by
              cases hfl : (subParagraphs (.elem t0 cs0)).filter
                  (fun par => 1 ≤ par.length) with
              | nil => exact absurd hfl hne
              | cons y ys =>
                refine ⟨⟨q, y, false, none⟩, ?_, rfl, rfl⟩
                apply List.mem_append_right
                exact List.mem_map.2 ⟨y, List.mem_cons_self _ _, rfl⟩
            constructor
            · intro q0 hq0
              rcases List.mem_append.1 hq0 with h | h
              · obtain ⟨f, hf, h1, h2⟩ := hinv q0 h
                exact ⟨f, List.mem_append_left _ hf, h1, h2⟩
              · rw [List.mem_singleton] at h
                subst h
                exact hfrag
            · intro _
              obtain ⟨f, hf, h1, h2⟩ := hfrag
              exact ⟨f, hf, Or.inl ⟨h1, h2 ▸ hpre⟩⟩
          case isFalse hcond1 =>
            constructor
            · intro q0 hq0
              rcases List.mem_append.1 hq0 with h | h
              · obtain ⟨f, hf, h1, h2⟩ := hinv q0 h
                exact ⟨f, List.mem_append_left _ hf, h1, h2⟩
              · rw [List.mem_singleton] at h
                rw [h]
                exact ⟨⟨q, trimStr (textContent (.elem t0 cs0)), false, none⟩,
                  List.mem_append_right _ (List.mem_singleton.2 rfl), rfl, rfl⟩
            · intro _
              exact ⟨⟨q, trimStr (textContent (.elem t0 cs0)), false, none⟩,
                List.mem_append_right _ (List.mem_singleton.2 rfl),
                Or.inl ⟨rfl, hpre⟩⟩

theorem foldl_frags_mono (body : XNode) :
    ∀ (l : List (List Nat × Str)) (st : ExtState),
      ∃ tail, (l.foldl (extractStep body) st).frags = st.frags ++ tail := by
  intro l
  induction l with
  | nil => intro st; exact ⟨[], by simp [List.foldl]⟩
  | cons y rest ih =>
    intro st
    obtain ⟨t1, h1⟩ := extractStep_mono body st y
    obtain ⟨t2, h2⟩ := ih (extractStep body st y)
    exact ⟨t1 ++ t2, by rw [List.foldl_cons, h2, h1, List.append_assoc]⟩

theorem extract_fold (body : XNode) (hbody : brChildless body = true) :
    ∀ (l : List (List Nat × Str)) (st : ExtState),
      (∀ x ∈ l, x ∈ walkTexts body) → ExtInv st →
      ∀ x ∈ l, acceptNode body x.1 x.2 = true →
        ∃ f ∈ (l.foldl (extractStep body) st).frags, FragFor f x.1 := by
  intro l
  induction l with
  | nil => intro st _ _ x hx; simp at hx
  | cons y rest ih =>
    intro st hl hinv x hx hacc
    have hstep := extractStep_inv_handles body hbody st hinv y
      (hl y (List.mem_cons_self _ _))
    rcases List.mem_cons.1 hx with rfl | hx
    · obtain ⟨f, hf, hff⟩ := hstep.2 hacc
      obtain ⟨tail, htail⟩ := foldl_frags_mono body rest (extractStep body st x)
      rw [List.foldl_cons]
      exact ⟨f, htail ▸ List.mem_append_left _ hf, hff⟩
    · rw [List.foldl_cons]
      exact ih (extractStep body st y)
        (fun z hz => hl z (List.mem_cons_of_mem _ hz)) hstep.1 x hx hacc

/-- C3: no text node is lost during extraction.  In any parsed document
(where `<br>` elements are childless, as the HTML parser guarantees),
every text node retained by the walker filter — non-whitespace content
and parent not `script`/`style` — is accounted for by some extracted
fragment: either a block-anchored fragment whose anchor element path is
an ancestor of (contains) the node, or an inline fragment recorded for
the node itself when it has no block-level ancestor. -/
theorem c3_extraction_no_loss (body : XNode) (hbody : brChildless body = true)
    (p : List Nat) (s : Str) (hmem : (p, s) ∈ walkTexts body)
    (hacc : acceptNode body p s = true) :
    ∃ f ∈ extractFragments body,
      (f.isInline = false ∧ f.anchor <+: p) ∨
      (f.isInline = true ∧ f.nodePath = some p) :=
  extract_fold body hbody (walkTexts body) ⟨[], []⟩ (fun _ h => h)
    (by intro q hq; simp at hq) (p, s) hmem hacc

/-- A small document: `<body><p>hi</p>loose</body>`. -/
def cexBodyC3 : XNode :=
  .elem "body" [.elem "p" [.text ['h', 'i']], .text ['l', 'o', 'o', 's', 'e']]

theorem c3_extraction_no_loss_witness :
    ∃ f ∈ extractFragments cexBodyC3,
      (f.isInline = false ∧ f.anchor <+: [0, 0]) ∨
      (f.isInline = true ∧ f.nodePath = some [0, 0]) :=
  c3_extraction_no_loss cexBodyC3 (by decide) [0, 0] ['h', 'i']
    (by decide) (by decide)

/-! ## Document rewriter and metadata cleanup
(`translateWithZhipuAI` lines 3069-3236; the OpenRouter rewriter,
lines 3896-4063, is the identical algorithm). -/

/-- Substring test (`String.prototype.includes` / regex `.test` with a
literal pattern). -/
def containsSub (hay pat : Str) : Bool :=
  pat.isPrefixOf hay ||
  match hay with
  | [] => false
  | _ :: t => containsSub t pat

/-- Case-insensitive containment (the `/i` regex flag). -/
def containsCI (hay pat : Str) : Bool :=
  containsSub (hay.map Char.toLower) (pat.map Char.toLower)

/-- The language-marker character class `[日中韩英法德俄葡西語語语]`. -/
def langChars : List Char :=
  ['日', '中', '韩', '英', '法', '德', '俄', '葡', '西', '語', '语']

/-- What the JavaScript regex `.` matches (no `s` flag): anything but a
line terminator. -/
def jsDotChar (c : Char) : Bool :=
  !(c = '\n' || c = '\r' || c = ' ' || c = ' ')

/-- After the language character, `[\s\-→]*` (which may cross newlines)
then `.*?\]`: drop the separator run, then scan dot-chars for `]`. -/
def blClose : Str → Bool
  | [] => false
  | c :: rest => if c = ']' then true else if jsDotChar c then blClose rest
                 else false

/-- Scan dot-chars for a language character, then close; a backtracking
engine that fails to close from one language character extends the lazy
`.*?` over it (every language character is itself a dot-char) and retries
from the next one, hence the disjunct recursing past a failed match. -/
def blLangScan : Str → Bool
  | [] => false
  | c :: rest =>
    if langChars.contains c then
      blClose (rest.dropWhile (fun d => isWsChar d || d = '-' || d = '→')) ||
        blLangScan rest
    else if jsDotChar c then blLangScan rest
    else false

/-- The third metadata pattern
`/\[.*?[日中韩英法德俄葡西語語语][\s\-→]*.*?\]/i` (line 3204): an opening
bracket, then (without crossing a line terminator) a language character
and later a closing bracket. -/
def bracketLangPat : Str → Bool
  | [] => false
  | c :: rest =>
    if c = '[' then blLangScan rest || bracketLangPat rest
    else bracketLangPat rest

/-- `metadataPatterns.some(pattern => pattern.test(nodeText))`
(lines 3201-3222): `/Excerpt From/i`,
`/This material may be protected by copyright/i`, and the
language-marker bracket pattern. -/
def hasMetadata (s : Str) : Bool :=
  containsCI s "Excerpt From".data ||
  containsCI s "This material may be protected by copyright".data ||
  bracketLangPat s

/-!
The metadata cleanup walker (lines 3207-3234): every text node whose
trimmed content is non-empty and matches a metadata pattern is removed
from its parent, whatever fragment it belonged to.
-/
mutual

def cleanupNode : XNode → XNode
  | .text s => .text s
  | .elem t cs => .elem t (cleanupList cs)

def cleanupList : List XNode → List XNode
  | [] => []
  | c :: rest =>
    match c with
    | .text s =>
      if trimStr s ≠ [] ∧ hasMetadata (trimStr s) = true then cleanupList rest
      else .text s :: cleanupList rest
    | .elem _ _ => cleanupNode c :: cleanupList rest

end

/-!
All subtrees of a node (the node itself included).
-/
mutual

def subtreesOf : XNode → List XNode
  | .text s => [.text s]
  | .elem t cs => .elem t cs :: subtreesList cs

def subtreesList : List XNode → List XNode
  | [] => []
  | c :: rest => subtreesOf c ++ subtreesList rest

end

theorem self_mem_subtrees (n : XNode) : n ∈ subtreesOf n := by
  cases n with
  | text s => exact List.mem_singleton.2 rfl
  | elem t cs => exact List.mem_cons_self _ _

/-!
No text node in the subtree matches a metadata pattern, so the cleanup
walker leaves the subtree untouched.
-/
mutual

def cleanTexts : XNode → Bool
  | .text s => !(decide (trimStr s ≠ []) && hasMetadata (trimStr s))
  | .elem _ cs => cleanTextsList cs

def cleanTextsList : List XNode → Bool
  | [] => true
  | c :: rest => cleanTexts c && cleanTextsList rest

end

mutual

theorem cleanup_id : ∀ (n : XNode), cleanTexts n = true → cleanupNode n = n
  | .text s, _ => rfl
  | .elem t cs, h => by
    show XNode.elem t (cleanupList cs) = XNode.elem t cs
    rw [cleanupList_id cs h]

theorem cleanupList_id :
    ∀ (cs : List XNode), cleanTextsList cs = true → cleanupList cs = cs
  | [], _ => rfl
  | .text s :: rest, h => by
    have h' : cleanTexts (.text s) = true ∧ cleanTextsList rest = true := by
      simpa [cleanTextsList, Bool.and_eq_true] using h
    have hcond : ¬(trimStr s ≠ [] ∧ hasMetadata (trimStr s) = true) := by
      have := h'.1
      simp only [cleanTexts, Bool.not_eq_true', Bool.and_eq_true,
        decide_eq_true_iff] at this
      intro ⟨h1, h2⟩
      rcases Bool.and_eq_false_iff.1 this with hc | hc
      · rw [decide_eq_false_iff_not] at hc
        exact hc h1
      · rw [hc] at h2
        exact absurd h2 (by simp)
    show (if trimStr s ≠ [] ∧ hasMetadata (trimStr s) = true then
        cleanupList rest else .text s :: cleanupList rest) = _
    rw [if_neg hcond, cleanupList_id rest h'.2]
  | .elem t cs :: rest, h => by
    have h' : cleanTextsList cs = true ∧ cleanTextsList rest = true := by
      simpa [cleanTextsList, cleanTexts, Bool.and_eq_true] using h
    show XNode.elem t (cleanupList cs) :: cleanupList rest = _
    rw [cleanupList_id cs h'.1, cleanupList_id rest h'.2]

end

mutual

theorem mem_subtrees_cleanup :
    ∀ (T : XNode) (tag : String) (cs : List XNode),
      (XNode.elem tag cs) ∈ subtreesOf T →
      (XNode.elem tag (cleanupList cs)) ∈ subtreesOf (cleanupNode T)
  | .text s, tag, cs, h => by
    simp only [subtreesOf, List.mem_singleton] at h
    exact absurd h (by simp)
  | .elem t cs0, tag, cs, h => by
    rcases List.mem_cons.1 h with heq | h
    · injection heq with h1 h2
      subst h1
      subst h2
      exact self_mem_subtrees _
    · show _ ∈ XNode.elem t (cleanupList cs0) :: subtreesList (cleanupList cs0)
      exact List.mem_cons_of_mem _ (mem_subtreesList_cleanup cs0 tag cs h)

theorem mem_subtreesList_cleanup :
    ∀ (l : List XNode) (tag : String) (cs : List XNode),
      (XNode.elem tag cs) ∈ subtreesList l →
      (XNode.elem tag (cleanupList cs)) ∈ subtreesList (cleanupList l)
  | [], tag, cs, h => by simp [subtreesList] at h
  | .text s :: rest, tag, cs, h => by
    rcases List.mem_append.1 h with h | h
    · simp only [subtreesOf, List.mem_singleton] at h
      exact absurd h (by simp)
    · have hrest := mem_subtreesList_cleanup rest tag cs h
      show _ ∈ subtreesList (if trimStr s ≠ [] ∧
          hasMetadata (trimStr s) = true then
          cleanupList rest else .text s :: cleanupList rest)
      split
      · exact hrest
      · exact List.mem_append_right _ hrest
  | .elem t cs0 :: rest, tag, cs, h => by
    show _ ∈ subtreesOf (XNode.elem t (cleanupList cs0)) ++
      subtreesList (cleanupList rest)
    rcases List.mem_append.1 h with h | h
    · exact List.mem_append_left _ (mem_subtrees_cleanup (.elem t cs0) tag cs h)
    · exact List.mem_append_right _ (mem_subtreesList_cleanup rest tag cs h)

end

/-! ## Claim theorems: rewriter no-data-loss (C1) -/

end EpubTranslator
